import Mathlib

/-!
# Verification of the inventory service (`src/main.py`)

The service is thin HTTP glue over a Redis key-value store.  We embed the
Redis state touched by the handlers shallowly:

* the `item_ids` counter (an integer key; an absent key behaves as 0 for
  `INCR`, so we store plain `Int` starting at 0);
* the `item_name_to_id` hash, an insertion-ordered association list from
  item name to id (Redis stores the id as a decimal string and the handler
  converts it back with `int(...)`; since that round-trip is the identity we
  store the `Int` directly);
* the family of `item_id:{id}` hashes, an association list from id to a
  hash whose three fields (`item_id`, `item_name`, `quantity`) may each be
  individually absent, exactly as in a Redis hash.

Each HTTP handler of `src/main.py` becomes a function from its path
parameters and the current state to `Except HTTPException (response × state)`;
`raise HTTPException(...)` becomes `Except.error` and leaves the state
untouched (all mutating store calls in the source happen after the raise
points on every path).
-/

namespace Inventory

/-- One Redis hash `item_id:{id}`.  Every field may be individually absent,
as for a real Redis hash; `HGET` of any field of a missing key is also
`none`, which we model by the key being absent from `RedisState.records`. -/
structure ItemHash where
  item_id : Option Int
  item_name : Option String
  quantity : Option Int
deriving Repr, DecidableEq

/-- The `ItemPayload` pydantic model of `models.py`, used as the response
body of `add_item`. -/
structure ItemPayload where
  item_id : Int
  item_name : String
  quantity : Int
deriving Repr, DecidableEq

/-- `fastapi.HTTPException`, reduced to the two fields the handlers set. -/
structure HTTPException where
  status_code : Nat
  detail : String
deriving Repr, DecidableEq

/-- The portion of the Redis database the handlers touch. -/
structure RedisState where
  item_ids : Int
  item_name_to_id : List (String × Int)
  records : List (Int × ItemHash)
deriving Repr, DecidableEq

/-- The state of a freshly flushed database: no keys at all. -/
def initialState : RedisState := ⟨0, [], []⟩

section AssocOps

variable {α β : Type} [DecidableEq α]

/-- `HGET key field`: value of the first (in a real hash: the only)
binding of a field, `none` when absent. -/
def hget : List (α × β) → α → Option β
  | [], _ => none
  | (k', v) :: t, k => if k' = k then some v else hget t k

/-- `HSET key field value`: overwrite the binding in place if the field is
present, append it otherwise.  (Also models `HSET` with a `mapping` covering
every field of an `item_id:{id}` hash: those hashes only ever hold the three
fields of `ItemHash`, so setting all three replaces the hash.) -/
def hset : List (α × β) → α → β → List (α × β)
  | [], k, v => [(k, v)]
  | (k', v') :: t, k, v => if k' = k then (k, v) :: t else (k', v') :: hset t k v

/-- `HDEL key field` (and, on `records`, `DEL item_id:{id}`): remove the
binding entirely. -/
def hdel : List (α × β) → α → List (α × β)
  | [], _ => []
  | (k', v) :: t, k => if k' = k then hdel t k else (k', v) :: hdel t k

end AssocOps

/-- The update `HINCRBY` applies to the `quantity` field of a hash: an
absent field counts as 0. -/
def incrQuantity (h : ItemHash) (delta : Int) : ItemHash :=
  { h with quantity := some (h.quantity.getD 0 + delta) }

/-- `HINCRBY item_id:{k} quantity delta`: increments the `quantity` field of
the hash at key `k`, creating the key (with only a `quantity` field) when it
is absent, as Redis does. -/
def hincrbyQuantity : List (Int × ItemHash) → Int → Int → List (Int × ItemHash)
  | [], k, d => [(k, ⟨none, none, some d⟩)]
  | (k', h) :: t, k, d =>
    if k' = k then (k, incrQuantity h d) :: t else (k', h) :: hincrbyQuantity t k d

/-- `HEXISTS item_id:{k} item_id`, the existence test every id-taking
handler performs first. -/
def hexistsItemId (l : List (Int × ItemHash)) (k : Int) : Bool :=
  match hget l k with
  | some h => h.item_id.isSome
  | none => false

/-- Python `f"{x}"` on an `Optional[str]`: `None` prints as `"None"`. -/
def pyStr : Option String → String
  | some s => s
  | none => "None"

/-- `POST /items/{item_name}/{quantity}` (`add_item` in `src/main.py`).
Rejects `quantity <= 0` with a 400.  If the name resolves in
`item_name_to_id`, increments the record's quantity; otherwise allocates a
new id with `INCR item_ids`, writes the full record hash, then links the
name.  Returns `ItemPayload(item_id, item_name, quantity)` built from the
resolved id and the request parameters. -/
def add_item (item_name : String) (quantity : Int) (s : RedisState) :
    Except HTTPException (ItemPayload × RedisState) :=
  if quantity ≤ 0 then
    .error ⟨400, "Quantity must be greater than 0."⟩
  else
    match hget s.item_name_to_id item_name with
    | some item_id =>
      .ok (⟨item_id, item_name, quantity⟩,
        { s with records := hincrbyQuantity s.records item_id quantity })
    | none =>
      let item_id := s.item_ids + 1
      .ok (⟨item_id, item_name, quantity⟩,
        { s with
          item_ids := item_id
          records := hset s.records item_id ⟨some item_id, some item_name, some quantity⟩
          item_name_to_id := hset s.item_name_to_id item_name item_id })

/-- `GET /items/{item_id}` (`list_item` in `src/main.py`): 404 unless the
record hash has an `item_id` field, else `HGETALL` of the hash (an absent
key reads back as the empty hash). -/
def list_item (item_id : Int) (s : RedisState) : Except HTTPException ItemHash :=
  if hexistsItemId s.records item_id then
    .ok ((hget s.records item_id).getD ⟨none, none, none⟩)
  else
    .error ⟨404, "Item not found."⟩

/-- The loop body of `list_items`: walk the `item_name_to_id` entries in
order; for each referenced record, skip the entry when the record's
`item_name` field is absent (`continue`), and default an absent `quantity`
field to 0.  The payload's name is the record's `item_name` field (the
directory key is only used to find the id). -/
def list_items_go (records : List (Int × ItemHash)) :
    List (String × Int) → List ItemPayload
  | [] => []
  | (_, item_id) :: rest =>
    match (hget records item_id).bind ItemHash.item_name with
    | none => list_items_go records rest
    | some item_name =>
      ⟨item_id, item_name, ((hget records item_id).bind ItemHash.quantity).getD 0⟩ ::
        list_items_go records rest

/-- `GET /items` (`list_items` in `src/main.py`). -/
def list_items (s : RedisState) : List ItemPayload :=
  list_items_go s.records s.item_name_to_id

/-- `DELETE /items/{item_id}` (`delete_item` in `src/main.py`): 404 unless
the record hash has an `item_id` field; otherwise reads the record's
`item_name`, `HDEL`s that name (Python-formatted, so an absent field deletes
the literal name `"None"`) from the directory, deletes the record key, and
returns the confirmation string. -/
def delete_item (item_id : Int) (s : RedisState) :
    Except HTTPException (String × RedisState) :=
  if hexistsItemId s.records item_id then
    let item_name := (hget s.records item_id).bind ItemHash.item_name
    .ok ("Item (" ++ toString item_id ++ ", " ++ pyStr item_name ++ ") deleted.",
      { s with
        item_name_to_id := hdel s.item_name_to_id (pyStr item_name)
        records := hdel s.records item_id })
  else
    .error ⟨404, "Item not found."⟩

/-- `DELETE /items/{item_id}/{quantity}` (`remove_quantity` in
`src/main.py`): 404 unless the record hash has an `item_id` field; reads the
current quantity (absent field counts as 0); when
`existing_quantity <= quantity` deletes the record and its name mapping as
`delete_item` does, otherwise `HINCRBY`s the quantity by `-quantity`.
No sign check is performed on `quantity`. -/
def remove_quantity (item_id : Int) (quantity : Int) (s : RedisState) :
    Except HTTPException (String × RedisState) :=
  if hexistsItemId s.records item_id then
    let item_quantity := (hget s.records item_id).bind ItemHash.quantity
    let item_name := (hget s.records item_id).bind ItemHash.item_name
    let existing_quantity : Int := item_quantity.getD 0
    if existing_quantity ≤ quantity then
      .ok ("Item (" ++ toString item_id ++ ", " ++ pyStr item_name ++ ") deleted.",
        { s with
          item_name_to_id := hdel s.item_name_to_id (pyStr item_name)
          records := hdel s.records item_id })
    else
      .ok (toString quantity ++ " of " ++ toString existing_quantity ++
          " items from (" ++ toString item_id ++ ", " ++ pyStr item_name ++ ") removed.",
        { s with records := hincrbyQuantity s.records item_id (-quantity) })
  else
    .error ⟨404, "Item not found."⟩

/-- One state-mutating request: the three endpoints that write the store. -/
inductive Op where
  | add (item_name : String) (quantity : Int)
  | remove (item_id : Int) (quantity : Int)
  | delete (item_id : Int)
deriving Repr, DecidableEq

/-- The state after serving one request: an `HTTPException` response leaves
the store untouched (each handler raises before its first write). -/
def applyOp (op : Op) (s : RedisState) : RedisState :=
  match op with
  | .add n q => match add_item n q s with
    | .ok (_, s') => s'
    | .error _ => s
  | .remove i q => match remove_quantity i q s with
    | .ok (_, s') => s'
    | .error _ => s
  | .delete i => match delete_item i s with
    | .ok (_, s') => s'
    | .error _ => s

/-- The state after serving a sequence of requests. -/
def run (ops : List Op) (s : RedisState) : RedisState :=
  ops.foldl (fun st op => applyOp op st) s

/-- Well-formedness of a store state, maintained by every handler when the
service starts from a flushed database: every directory entry points at an
existing record carrying that very name; every record hash carries all
three fields, its `item_id` field agreeing with its key and its quantity
strictly positive; and every id in the directory is bounded by the
`item_ids` counter (so a freshly allocated id collides with nothing). -/
def WF (s : RedisState) : Prop :=
  (∀ p ∈ s.item_name_to_id, ∃ h, hget s.records p.2 = some h ∧ h.item_name = some p.1) ∧
  (∀ p ∈ s.records, p.2.item_id = some p.1 ∧
    (∃ nm, p.2.item_name = some nm) ∧ (∃ q, p.2.quantity = some q ∧ 0 < q)) ∧
  (∀ p ∈ s.item_name_to_id, p.2 ≤ s.item_ids)

/-! ## Association-list lemmas -/

section AssocLemmas

variable {α β : Type} [DecidableEq α]

theorem hget_hset_self (l : List (α × β)) (k : α) (v : β) :
    hget (hset l k v) k = some v := by
  induction l with
  | nil => simp [hget, hset]
  | cons p t ih =>
    obtain ⟨k', v'⟩ := p
    by_cases hk : k' = k <;> simp [hget, hset, hk, ih]

theorem hget_hset_ne (l : List (α × β)) (k k' : α) (v : β) (hne : k' ≠ k) :
    hget (hset l k v) k' = hget l k' := by
  induction l with
  | nil => simp [hget, hset, hne, Ne.symm hne]
  | cons p t ih =>
    obtain ⟨k₀, v₀⟩ := p
    by_cases hk : k₀ = k
    · subst hk
      simp [hget, hset, Ne.symm hne]
    · by_cases hk' : k₀ = k' <;> simp [hget, hset, hk, hk', hne, ih]

theorem mem_hset {l : List (α × β)} {k : α} {v : β} {p : α × β}
    (hp : p ∈ hset l k v) : p ∈ l ∨ p = (k, v) := by
  induction l with
  | nil => simpa [hset] using hp
  | cons q t ih =>
    obtain ⟨k₀, v₀⟩ := q
    by_cases hk : k₀ = k
    · simp only [hset, if_pos hk, List.mem_cons] at hp
      rcases hp with h | h
      · exact Or.inr h
      · exact Or.inl (List.mem_cons_of_mem _ h)
    · simp only [hset, if_neg hk, List.mem_cons] at hp
      rcases hp with h | h
      · exact Or.inl (h ▸ List.mem_cons_self _ _)
      · rcases ih h with h' | h'
        · exact Or.inl (List.mem_cons_of_mem _ h')
        · exact Or.inr h'

theorem hget_hdel_self (l : List (α × β)) (k : α) :
    hget (hdel l k) k = none := by
  induction l with
  | nil => simp [hget, hdel]
  | cons p t ih =>
    obtain ⟨k₀, v₀⟩ := p
    by_cases hk : k₀ = k <;> simp [hget, hdel, hk, ih]

theorem hget_hdel_ne (l : List (α × β)) (k k' : α) (hne : k' ≠ k) :
    hget (hdel l k) k' = hget l k' := by
  induction l with
  | nil => simp [hdel]
  | cons p t ih =>
    obtain ⟨k₀, v₀⟩ := p
    by_cases hk : k₀ = k
    · subst hk
      simp [hget, hdel, Ne.symm hne, ih]
    · by_cases hk' : k₀ = k' <;> simp [hget, hdel, hk, hk', hne, ih]

theorem mem_hdel {l : List (α × β)} {k : α} {p : α × β}
    (hp : p ∈ hdel l k) : p ∈ l ∧ p.1 ≠ k := by
  induction l with
  | nil => simp [hdel] at hp
  | cons q t ih =>
    obtain ⟨k₀, v₀⟩ := q
    by_cases hk : k₀ = k
    · simp only [hdel, if_pos hk] at hp
      exact ⟨List.mem_cons_of_mem _ (ih hp).1, (ih hp).2⟩
    · simp only [hdel, if_neg hk, List.mem_cons] at hp
      rcases hp with h | h
      · subst h
        exact ⟨List.mem_cons_self _ _, hk⟩
      · exact ⟨List.mem_cons_of_mem _ (ih h).1, (ih h).2⟩

theorem hget_some_mem {l : List (α × β)} {k : α} {v : β}
    (h : hget l k = some v) : (k, v) ∈ l := by
  induction l with
  | nil => simp [hget] at h
  | cons p t ih =>
    obtain ⟨k₀, v₀⟩ := p
    by_cases hk : k₀ = k
    · subst hk
      simp [hget] at h
      subst h
      exact List.mem_cons_self _ _
    · simp only [hget, if_neg hk] at h
      exact List.mem_cons_of_mem _ (ih h)

theorem hget_eq_none_iff {l : List (α × β)} {k : α} :
    hget l k = none ↔ ∀ p ∈ l, p.1 ≠ k := by
  induction l with
  | nil => simp [hget]
  | cons p t ih =>
    obtain ⟨k₀, v₀⟩ := p
    by_cases hk : k₀ = k <;> simp [hget, hk, ih]

theorem hset_of_hget_none {l : List (α × β)} {k : α} (v : β)
    (h : hget l k = none) : hset l k v = l ++ [(k, v)] := by
  induction l with
  | nil => simp [hset]
  | cons p t ih =>
    obtain ⟨k₀, v₀⟩ := p
    by_cases hk : k₀ = k
    · simp [hget, hk] at h
    · simp only [hget, if_neg hk] at h
      simp [hset, hk, ih h]

theorem hget_append_of_none {l l' : List (α × β)} {k : α}
    (h : hget l k = none) : hget (l ++ l') k = hget l' k := by
  induction l with
  | nil => simp
  | cons p t ih =>
    obtain ⟨k₀, v₀⟩ := p
    by_cases hk : k₀ = k
    · simp [hget, hk] at h
    · simp only [hget, if_neg hk] at h
      simpa [hget, hk] using ih h

end AssocLemmas

theorem hget_hincrbyQuantity_self_of_some {l : List (Int × ItemHash)} {k : Int}
    {h : ItemHash} (d : Int) (hl : hget l k = some h) :
    hget (hincrbyQuantity l k d) k = some (incrQuantity h d) := by
  induction l with
  | nil => simp [hget] at hl
  | cons p t ih =>
    obtain ⟨k₀, h₀⟩ := p
    by_cases hk : k₀ = k
    · subst hk
      simp [hget] at hl
      subst hl
      simp [hincrbyQuantity, hget]
    · simp only [hget, if_neg hk] at hl
      simpa [hincrbyQuantity, hget, hk] using ih hl

theorem hget_hincrbyQuantity_ne (l : List (Int × ItemHash)) (k k' d : Int)
    (hne : k' ≠ k) :
    hget (hincrbyQuantity l k d) k' = hget l k' := by
  induction l with
  | nil => simp [hincrbyQuantity, hget, hne, Ne.symm hne]
  | cons p t ih =>
    obtain ⟨k₀, h₀⟩ := p
    by_cases hk : k₀ = k
    · subst hk
      simp [hincrbyQuantity, hget, Ne.symm hne]
    · by_cases hk' : k₀ = k' <;> simp [hincrbyQuantity, hget, hk, hk', hne, ih]

theorem mem_hincrbyQuantity {l : List (Int × ItemHash)} {k d : Int}
    {p : Int × ItemHash} (hp : p ∈ hincrbyQuantity l k d) :
    p ∈ l ∨ (∃ h, hget l k = some h ∧ p = (k, incrQuantity h d)) ∨
      (hget l k = none ∧ p = (k, ⟨none, none, some d⟩)) := by
  induction l with
  | nil =>
    simp only [hincrbyQuantity, List.mem_singleton] at hp
    exact Or.inr (Or.inr ⟨by simp [hget], hp⟩)
  | cons q t ih =>
    obtain ⟨k₀, h₀⟩ := q
    by_cases hk : k₀ = k
    · subst hk
      simp only [hincrbyQuantity, if_true, eq_self_iff_true, List.mem_cons] at hp
      rcases hp with h | h
      · exact Or.inr (Or.inl ⟨h₀, by simp [hget], h⟩)
      · exact Or.inl (List.mem_cons_of_mem _ h)
    · simp only [hincrbyQuantity, if_neg hk, List.mem_cons] at hp
      rcases hp with h | h
      · exact Or.inl (h ▸ List.mem_cons_self _ _)
      · rcases ih h with h' | h' | h'
        · exact Or.inl (List.mem_cons_of_mem _ h')
        · obtain ⟨hh, hh1, hh2⟩ := h'
          exact Or.inr (Or.inl ⟨hh, by simpa [hget, hk] using hh1, hh2⟩)
        · exact Or.inr (Or.inr ⟨by simpa [hget, hk] using h'.1, h'.2⟩)

/-! ## The reachable-state invariant -/

theorem wf_initialState : WF initialState := by
  refine ⟨?_, ?_, ?_⟩ <;> simp [initialState]

/-- Deleting a record key together with the directory entry named by the
record's `item_name` field (the shared tail of `delete_item` and of the
deletion branch of `remove_quantity`) preserves well-formedness. -/
theorem wf_hdel_pair (s : RedisState) (item_id : Int) (hwf : WF s) :
    WF { s with
      item_name_to_id := hdel s.item_name_to_id
        (pyStr ((hget s.records item_id).bind ItemHash.item_name))
      records := hdel s.records item_id } := by
  obtain ⟨hA, hB, hD⟩ := hwf
  refine ⟨?_, ?_, ?_⟩
  · intro p hp
    dsimp only at hp ⊢
    obtain ⟨hmem, hne⟩ := mem_hdel hp
    obtain ⟨h, hh, hnm⟩ := hA p hmem
    by_cases hid : p.2 = item_id
    · exfalso
      apply hne
      rw [hid] at hh
      rw [hh]
      simp [pyStr, hnm]
    · exact ⟨h, by rw [hget_hdel_ne _ _ _ hid]; exact hh, hnm⟩
  · intro p hp
    exact hB p (mem_hdel hp).1
  · intro p hp
    exact hD p (mem_hdel hp).1

/-- `HINCRBY` on an existing record preserves well-formedness as long as
the resulting quantity stays positive. -/
theorem wf_hincrby (s : RedisState) (item_id delta : Int) (h : ItemHash)
    (hh : hget s.records item_id = some h)
    (hpos : 0 < h.quantity.getD 0 + delta) (hwf : WF s) :
    WF { s with records := hincrbyQuantity s.records item_id delta } := by
  obtain ⟨hA, hB, hD⟩ := hwf
  refine ⟨?_, ?_, ?_⟩
  · intro p hp
    dsimp only at hp ⊢
    obtain ⟨h', hh', hnm'⟩ := hA p hp
    by_cases hid : p.2 = item_id
    · rw [hid, hh] at hh'
      obtain rfl := Option.some_inj.mp hh'
      refine ⟨incrQuantity h delta, ?_, ?_⟩
      · rw [hid]
        exact hget_hincrbyQuantity_self_of_some delta hh
      · simpa [incrQuantity] using hnm'
    · exact ⟨h', by rw [hget_hincrbyQuantity_ne _ _ _ _ hid]; exact hh', hnm'⟩
  · intro p hp
    dsimp only at hp
    rcases mem_hincrbyQuantity hp with hmem | ⟨h', hh', rfl⟩ | ⟨hnone, rfl⟩
    · exact hB p hmem
    · rw [hh] at hh'
      obtain rfl := Option.some_inj.mp hh'
      have hBh := hB (item_id, h) (hget_some_mem hh)
      obtain ⟨nm, hnm⟩ := hBh.2.1
      refine ⟨by simpa [incrQuantity] using hBh.1, ⟨nm, by simpa [incrQuantity] using hnm⟩,
        ⟨h.quantity.getD 0 + delta, by simp [incrQuantity], hpos⟩⟩
    · rw [hh] at hnone
      simp at hnone
  · intro p hp
    exact hD p hp

/-- The fresh-name branch of `add_item` (allocate, write the record, link
the name) preserves well-formedness. -/
theorem wf_add_fresh (s : RedisState) (name : String) (q : Int) (hq : 0 < q)
    (hres : hget s.item_name_to_id name = none) (hwf : WF s) :
    WF { s with
      item_ids := s.item_ids + 1
      records := hset s.records (s.item_ids + 1)
        ⟨some (s.item_ids + 1), some name, some q⟩
      item_name_to_id := hset s.item_name_to_id name (s.item_ids + 1) } := by
  obtain ⟨hA, hB, hD⟩ := hwf
  have hdir : hset s.item_name_to_id name (s.item_ids + 1)
      = s.item_name_to_id ++ [(name, s.item_ids + 1)] := hset_of_hget_none _ hres
  refine ⟨?_, ?_, ?_⟩
  · intro p hp
    dsimp only at hp ⊢
    rw [hdir] at hp
    rcases List.mem_append.mp hp with hmem | hmem
    · obtain ⟨h, hh, hnm⟩ := hA p hmem
      have hle : p.2 ≤ s.item_ids := hD p hmem
      have hne : p.2 ≠ s.item_ids + 1 := by omega
      exact ⟨h, by rw [hget_hset_ne _ _ _ _ hne]; exact hh, hnm⟩
    · rw [List.mem_singleton] at hmem
      subst hmem
      exact ⟨⟨some (s.item_ids + 1), some name, some q⟩, hget_hset_self _ _ _, rfl⟩
  · intro p hp
    dsimp only at hp
    rcases mem_hset hp with hmem | rfl
    · exact hB p hmem
    · exact ⟨rfl, ⟨name, rfl⟩, ⟨q, rfl, hq⟩⟩
  · intro p hp
    dsimp only at hp ⊢
    rw [hdir] at hp
    rcases List.mem_append.mp hp with hmem | hmem
    · have := hD p hmem
      omega
    · rw [List.mem_singleton] at hmem
      subst hmem
      exact le_refl _

/-- Every handler preserves well-formedness (error responses leave the
state untouched). -/
theorem wf_applyOp (op : Op) (s : RedisState) (hwf : WF s) : WF (applyOp op s) := by
  cases op with
  | add name q =>
    by_cases hq : q ≤ 0
    · simpa [applyOp, add_item, hq] using hwf
    · cases hres : hget s.item_name_to_id name with
      | some item_id =>
        obtain ⟨h, hh, hnm⟩ := hwf.1 (name, item_id) (hget_some_mem hres)
        dsimp only at hh
        obtain ⟨q0, hq0, hq0pos⟩ := (hwf.2.1 (item_id, h) (hget_some_mem hh)).2.2
        have heq : applyOp (.add name q) s
            = { s with records := hincrbyQuantity s.records item_id q } := by
          simp [applyOp, add_item, hq, hres]
        rw [heq]
        refine wf_hincrby s item_id q h hh ?_ hwf
        rw [hq0]
        simp only [Option.getD_some]
        omega
      | none =>
        have heq : applyOp (.add name q) s
            = { s with
                item_ids := s.item_ids + 1
                records := hset s.records (s.item_ids + 1)
                  ⟨some (s.item_ids + 1), some name, some q⟩
                item_name_to_id := hset s.item_name_to_id name (s.item_ids + 1) } := by
          simp [applyOp, add_item, hq, hres]
        rw [heq]
        exact wf_add_fresh s name q (by omega) hres hwf
  | remove item_id q =>
    by_cases hex : hexistsItemId s.records item_id
    · by_cases hcmp : ((hget s.records item_id).bind ItemHash.quantity).getD 0 ≤ q
      · have heq : applyOp (.remove item_id q) s
            = { s with
                item_name_to_id := hdel s.item_name_to_id
                  (pyStr ((hget s.records item_id).bind ItemHash.item_name))
                records := hdel s.records item_id } := by
          simp [applyOp, remove_quantity, hex, hcmp]
        rw [heq]
        exact wf_hdel_pair s item_id hwf
      · cases hg : hget s.records item_id with
        | none => exact absurd hex (by simp [hexistsItemId, hg])
        | some h =>
          have heq : applyOp (.remove item_id q) s
              = { s with records := hincrbyQuantity s.records item_id (-q) } := by
            simp [applyOp, remove_quantity, hex, hcmp]
          rw [heq]
          refine wf_hincrby s item_id (-q) h hg ?_ hwf
          rw [hg] at hcmp
          have hcmp' : ¬ h.quantity.getD 0 ≤ q := hcmp
          omega
    · simpa [applyOp, remove_quantity, hex] using hwf
  | delete item_id =>
    by_cases hex : hexistsItemId s.records item_id
    · have heq : applyOp (.delete item_id) s
          = { s with
              item_name_to_id := hdel s.item_name_to_id
                (pyStr ((hget s.records item_id).bind ItemHash.item_name))
              records := hdel s.records item_id } := by
        simp [applyOp, delete_item, hex]
      rw [heq]
      exact wf_hdel_pair s item_id hwf
    · simpa [applyOp, delete_item, hex] using hwf

/-- Every state reachable from the flushed database is well-formed. -/
theorem wf_run (ops : List Op) (s : RedisState) (hwf : WF s) : WF (run ops s) := by
  induction ops generalizing s with
  | nil => exact hwf
  | cons op ops ih => exact ih _ (wf_applyOp op s hwf)

/-! ## The claims -/

/-- C1 counterexample: after `POST /items/apple/5`, the request
`POST /items/apple/3` stores quantity 8 under the name `apple` but the
response's quantity field is 3, not the stored 8 — the handler builds the
response from the request's quantity, not from the record it updated. -/
theorem add_item_response_vs_stored_cex :
    (add_item "apple" 3 (applyOp (Op.add "apple" 5) initialState)).toOption.map
        (fun r => r.1.quantity) = some 3 ∧
    hget (applyOp (Op.add "apple" 3) (applyOp (Op.add "apple" 5)
        initialState)).item_name_to_id "apple" = some 1 ∧
    (hget (applyOp (Op.add "apple" 3) (applyOp (Op.add "apple" 5)
        initialState)).records 1).bind ItemHash.quantity = some 8 ∧
    (3 : Int) ≠ 8 := by
  decide

/-- C1 (amended): every add-item request with a positive quantity succeeds,
and the response's quantity field equals the quantity of the request (which
is the stored quantity only when the name was new; on an increment the
accumulated total is not reflected in the response). -/
theorem add_item_response_reports_request_quantity (s : RedisState) (name : String)
    (q : Int) (hq : 0 < q) :
    ∃ p s', add_item name q s = .ok (p, s') ∧ p.quantity = q ∧ p.item_name = name := by
  have hq' : ¬ q ≤ 0 := by omega
  cases hres : hget s.item_name_to_id name with
  | some item_id =>
    refine ⟨⟨item_id, name, q⟩,
      { s with records := hincrbyQuantity s.records item_id q }, ?_, rfl, rfl⟩
    simp [add_item, hq', hres]
  | none =>
    refine ⟨⟨s.item_ids + 1, name, q⟩,
      { s with
        item_ids := s.item_ids + 1
        records := hset s.records (s.item_ids + 1)
          ⟨some (s.item_ids + 1), some name, some q⟩
        item_name_to_id := hset s.item_name_to_id name (s.item_ids + 1) }, ?_, rfl, rfl⟩
    simp [add_item, hq', hres]

theorem add_item_response_reports_request_quantity_witness :
    ∃ p s', add_item "pear" 4 initialState = .ok (p, s') ∧
      p.quantity = 4 ∧ p.item_name = "pear" :=
  add_item_response_reports_request_quantity initialState "pear" 4 (by decide)

/-- C2: adding twice with the same (previously unmapped) name allocates a
single id, leaves exactly one directory entry for that name, still
resolving to that id, and the record stores the sum of the two
quantities; both responses carry the same id. -/
theorem add_twice_same_name (s : RedisState) (name : String) (q1 q2 : Int)
    (hq1 : 0 < q1) (hq2 : 0 < q2) (hres : hget s.item_name_to_id name = none) :
    ∃ p1 s1 p2 s2,
      add_item name q1 s = .ok (p1, s1) ∧ add_item name q2 s1 = .ok (p2, s2) ∧
      p1.item_id = p2.item_id ∧
      s2.item_name_to_id.countP (fun e => decide (e.1 = name)) = 1 ∧
      hget s2.item_name_to_id name = some p1.item_id ∧
      ∃ h, hget s2.records p1.item_id = some h ∧
        h.item_name = some name ∧ h.quantity = some (q1 + q2) := by
  have hq1' : ¬ q1 ≤ 0 := by omega
  have hq2' : ¬ q2 ≤ 0 := by omega
  have hres1 : hget (hset s.item_name_to_id name (s.item_ids + 1)) name
      = some (s.item_ids + 1) := hget_hset_self _ _ _
  have hrec1 : hget (hset s.records (s.item_ids + 1)
      ⟨some (s.item_ids + 1), some name, some q1⟩) (s.item_ids + 1)
      = some ⟨some (s.item_ids + 1), some name, some q1⟩ := hget_hset_self _ _ _
  refine ⟨⟨s.item_ids + 1, name, q1⟩,
    { s with
      item_ids := s.item_ids + 1
      records := hset s.records (s.item_ids + 1)
        ⟨some (s.item_ids + 1), some name, some q1⟩
      item_name_to_id := hset s.item_name_to_id name (s.item_ids + 1) },
    ⟨s.item_ids + 1, name, q2⟩,
    { s with
      item_ids := s.item_ids + 1
      records := hincrbyQuantity (hset s.records (s.item_ids + 1)
        ⟨some (s.item_ids + 1), some name, some q1⟩) (s.item_ids + 1) q2
      item_name_to_id := hset s.item_name_to_id name (s.item_ids + 1) },
    ?_, ?_, rfl, ?_, ?_, ?_⟩
  · simp [add_item, hq1', hres]
  · simp [add_item, hq2', hres1]
  · dsimp only
    rw [hset_of_hget_none _ hres, List.countP_append]
    have h0 : s.item_name_to_id.countP (fun e => decide (e.1 = name)) = 0 := by
      rw [List.countP_eq_zero]
      intro a ha
      simpa using hget_eq_none_iff.mp hres a ha
    rw [h0]
    simp
  · exact hres1
  · refine ⟨⟨some (s.item_ids + 1), some name, some (q1 + q2)⟩, ?_, rfl, rfl⟩
    dsimp only
    have := hget_hincrbyQuantity_self_of_some q2 hrec1
    rw [this]
    simp [incrQuantity]

theorem add_twice_same_name_witness :
    ∃ p1 s1 p2 s2,
      add_item "apple" 5 initialState = .ok (p1, s1) ∧
      add_item "apple" 3 s1 = .ok (p2, s2) ∧
      p1.item_id = p2.item_id ∧
      s2.item_name_to_id.countP (fun e => decide (e.1 = "apple")) = 1 ∧
      hget s2.item_name_to_id "apple" = some p1.item_id ∧
      ∃ h, hget s2.records p1.item_id = some h ∧
        h.item_name = some "apple" ∧ h.quantity = some (5 + 3) :=
  add_twice_same_name initialState "apple" 5 3 (by decide) (by decide) rfl

/-- C3: in every state reachable from the flushed database by any sequence
of add-item, remove-quantity and delete-item requests, every record in the
Record Store has a `quantity` field holding a strictly positive integer. -/
theorem reachable_record_quantity_pos (ops : List Op) (p : Int × ItemHash)
    (hp : p ∈ (run ops initialState).records) :
    ∃ q, p.2.quantity = some q ∧ 0 < q :=
  ((wf_run ops initialState wf_initialState).2.1 p hp).2.2

theorem reachable_record_quantity_pos_witness :
    ∃ q, ((1 : Int), (⟨some 1, some "apple", some 5⟩ : ItemHash)).2.quantity
        = some q ∧ 0 < q :=
  reachable_record_quantity_pos [Op.add "apple" 5]
    (1, ⟨some 1, some "apple", some 5⟩) (by decide)

/-- C6: an add-item request with a non-positive quantity is rejected with a
400 `InvalidArgument` response, and the store state — counter, directory and
records alike — is left completely unchanged. -/
theorem add_item_nonpos_rejected (s : RedisState) (name : String) (q : Int)
    (hq : q ≤ 0) :
    add_item name q s = .error ⟨400, "Quantity must be greater than 0."⟩ ∧
    applyOp (.add name q) s = s := by
  constructor
  · simp [add_item, hq]
  · simp [applyOp, add_item, hq]

theorem add_item_nonpos_rejected_witness :
    add_item "apple" 0 initialState
        = .error ⟨400, "Quantity must be greater than 0."⟩ ∧
    applyOp (.add "apple" 0) initialState = initialState :=
  add_item_nonpos_rejected initialState "apple" 0 (by decide)

/-- Shared computation for the decrement branch of `remove_quantity`: when
the record exists (with its `item_id` field), stores quantity `c`, and the
requested amount is strictly below `c`, the handler succeeds and `HINCRBY`s
the quantity by `-amount`, leaving the other fields alone. -/
theorem remove_quantity_decrement (s : RedisState) (item_id amount c : Int)
    (h : ItemHash) (hh : hget s.records item_id = some h)
    (hid : h.item_id.isSome = true) (hq : h.quantity = some c) (hlt : amount < c) :
    remove_quantity item_id amount s
      = .ok (toString amount ++ " of " ++ toString c ++ " items from ("
            ++ toString item_id ++ ", " ++ pyStr h.item_name ++ ") removed.",
          { s with records := hincrbyQuantity s.records item_id (-amount) }) ∧
    hget (hincrbyQuantity s.records item_id (-amount)) item_id
      = some (incrQuantity h (-amount)) ∧
    (incrQuantity h (-amount)).quantity = some (c - amount) ∧
    (incrQuantity h (-amount)).item_id = h.item_id ∧
    (incrQuantity h (-amount)).item_name = h.item_name := by
  have hex : hexistsItemId s.records item_id = true := by
    simp [hexistsItemId, hh, hid]
  have hcmp : ¬ ((hget s.records item_id).bind ItemHash.quantity).getD 0 ≤ amount := by
    rw [hh]
    simp [hq]
    omega
  refine ⟨?_, hget_hincrbyQuantity_self_of_some (-amount) hh, ?_, rfl, rfl⟩
  · simp [remove_quantity, hex, hcmp, hh, hq]
    intro hca
    exact absurd hca (by omega)
  · simp [incrQuantity, hq]
    omega

/-- C4: when the requested removal amount is at least the record's current
quantity, `remove_quantity` deletes the record and its directory entry:
the handler reports deletion, a subsequent `GET /items/{id}` answers 404,
and the record's name no longer resolves in the directory. -/
theorem remove_quantity_ge_deletes (s : RedisState) (item_id amount c : Int)
    (h : ItemHash) (nm : String)
    (hh : hget s.records item_id = some h) (hid : h.item_id.isSome = true)
    (hq : h.quantity = some c) (hnm : h.item_name = some nm) (hge : c ≤ amount) :
    ∃ s', remove_quantity item_id amount s
        = .ok ("Item (" ++ toString item_id ++ ", " ++ nm ++ ") deleted.", s') ∧
      hget s'.records item_id = none ∧
      list_item item_id s' = .error ⟨404, "Item not found."⟩ ∧
      hget s'.item_name_to_id nm = none := by
  have hex : hexistsItemId s.records item_id = true := by
    simp [hexistsItemId, hh, hid]
  have hcmp : ((hget s.records item_id).bind ItemHash.quantity).getD 0 ≤ amount := by
    rw [hh]
    simpa [hq] using hge
  refine ⟨{ s with
      item_name_to_id := hdel s.item_name_to_id nm
      records := hdel s.records item_id }, ?_, ?_, ?_, ?_⟩
  · simp [remove_quantity, hex, hcmp, hh, hnm, pyStr]
    intro hca
    rw [hq] at hca
    simp at hca
    omega
  · exact hget_hdel_self _ _
  · simp [list_item, hexistsItemId, hget_hdel_self]
  · exact hget_hdel_self _ _

theorem remove_quantity_ge_deletes_witness :
    ∃ s', remove_quantity 1 7 ⟨1, [("apple", 1)], [(1, ⟨some 1, some "apple", some 5⟩)]⟩
        = .ok ("Item (" ++ toString (1 : Int) ++ ", " ++ "apple" ++ ") deleted.", s') ∧
      hget s'.records 1 = none ∧
      list_item 1 s' = .error ⟨404, "Item not found."⟩ ∧
      hget s'.item_name_to_id "apple" = none :=
  remove_quantity_ge_deletes ⟨1, [("apple", 1)], [(1, ⟨some 1, some "apple", some 5⟩)]⟩
    1 7 5 ⟨some 1, some "apple", some 5⟩ "apple" rfl rfl rfl rfl (by decide)

/-- C5: when the requested removal amount is strictly below the record's
current quantity `c`, `remove_quantity` succeeds and leaves the record
present (same id and name fields, still passing the existence check) with
stored quantity exactly `c - amount`. -/
theorem remove_quantity_lt_decrements (s : RedisState) (item_id amount c : Int)
    (h : ItemHash) (hh : hget s.records item_id = some h)
    (hid : h.item_id.isSome = true) (hq : h.quantity = some c) (hlt : amount < c) :
    ∃ msg s', remove_quantity item_id amount s = .ok (msg, s') ∧
      hexistsItemId s'.records item_id = true ∧
      ∃ h', hget s'.records item_id = some h' ∧
        h'.item_id = h.item_id ∧ h'.item_name = h.item_name ∧
        h'.quantity = some (c - amount) := by
  obtain ⟨hrun, hgot, hquant, hidf, hnmf⟩ :=
    remove_quantity_decrement s item_id amount c h hh hid hq hlt
  refine ⟨_, _, hrun, ?_, incrQuantity h (-amount), hgot, hidf, hnmf, hquant⟩
  simp [hexistsItemId, hgot, hidf, hid]

theorem remove_quantity_lt_decrements_witness :
    ∃ msg s', remove_quantity 1 3 ⟨1, [("apple", 1)], [(1, ⟨some 1, some "apple", some 5⟩)]⟩
        = .ok (msg, s') ∧
      hexistsItemId s'.records 1 = true ∧
      ∃ h', hget s'.records 1 = some h' ∧
        h'.item_id = (ItemHash.mk (some 1) (some "apple") (some 5)).item_id ∧
        h'.item_name = (ItemHash.mk (some 1) (some "apple") (some 5)).item_name ∧
        h'.quantity = some (5 - 3) :=
  remove_quantity_lt_decrements ⟨1, [("apple", 1)], [(1, ⟨some 1, some "apple", some 5⟩)]⟩
    1 3 5 ⟨some 1, some "apple", some 5⟩ rfl rfl rfl (by decide)

/-- C10: `remove_quantity` never validates the sign of its amount: on an
existing record with positive quantity `c`, a negative amount is accepted
(the handler succeeds rather than rejecting the request) and the stored
quantity grows to `c + |amount|`. -/
theorem remove_quantity_negative_amount (s : RedisState) (item_id amount c : Int)
    (h : ItemHash) (hh : hget s.records item_id = some h)
    (hid : h.item_id.isSome = true) (hq : h.quantity = some c) (hc : 0 < c)
    (hneg : amount < 0) :
    ∃ msg s', remove_quantity item_id amount s = .ok (msg, s') ∧
      ∃ h', hget s'.records item_id = some h' ∧
        h'.quantity = some (c + |amount|) ∧ c < c + |amount| := by
  have hlt : amount < c := by omega
  obtain ⟨hrun, hgot, hquant, hidf, hnmf⟩ :=
    remove_quantity_decrement s item_id amount c h hh hid hq hlt
  have habs : c - amount = c + |amount| := by
    rw [abs_of_neg hneg]
    ring
  refine ⟨_, _, hrun, incrQuantity h (-amount), hgot, ?_, by omega⟩
  rw [hquant, habs]

theorem remove_quantity_negative_amount_witness :
    ∃ msg s', remove_quantity 1 (-3) ⟨1, [("apple", 1)], [(1, ⟨some 1, some "apple", some 5⟩)]⟩
        = .ok (msg, s') ∧
      ∃ h', hget s'.records 1 = some h' ∧
        h'.quantity = some (5 + |(-3 : Int)|) ∧ (5 : Int) < 5 + |(-3 : Int)| :=
  remove_quantity_negative_amount ⟨1, [("apple", 1)], [(1, ⟨some 1, some "apple", some 5⟩)]⟩
    1 (-3) 5 ⟨some 1, some "apple", some 5⟩ rfl rfl rfl (by decide) (by decide)

/-- No request ever decreases the `item_ids` counter. -/
theorem item_ids_mono_applyOp (op : Op) (s : RedisState) :
    s.item_ids ≤ (applyOp op s).item_ids := by
  cases op with
  | add name q =>
    by_cases hq : q ≤ 0
    · simp [applyOp, add_item, hq]
    · cases hres : hget s.item_name_to_id name with
      | some item_id => simp [applyOp, add_item, hq, hres]
      | none => simp [applyOp, add_item, hq, hres]
  | remove item_id q =>
    by_cases hex : hexistsItemId s.records item_id
    · by_cases hcmp : ((hget s.records item_id).bind ItemHash.quantity).getD 0 ≤ q
      · simp [applyOp, remove_quantity, hex, hcmp]
      · simp [applyOp, remove_quantity, hex, hcmp]
    · simp [applyOp, remove_quantity, hex]
  | delete item_id =>
    by_cases hex : hexistsItemId s.records item_id
    · simp [applyOp, delete_item, hex]
    · simp [applyOp, delete_item, hex]

theorem item_ids_mono_run (ops : List Op) (s : RedisState) :
    s.item_ids ≤ (run ops s).item_ids := by
  induction ops generalizing s with
  | nil => exact le_refl _
  | cons op ops ih => exact le_trans (item_ids_mono_applyOp op s) (ih (applyOp op s))

/-- C7: the id counter is never touched by delete-item, and two successful
allocations — a fresh-name add, then after any intervening request
sequence another fresh-name add — always hand out strictly increasing ids,
so an id is never reused. -/
theorem allocated_ids_strictly_increase :
    (∀ (item_id : Int) (s : RedisState),
      (applyOp (.delete item_id) s).item_ids = s.item_ids) ∧
    (∀ (s : RedisState) (name1 : String) (q1 : Int) (p1 : ItemPayload)
        (s1 : RedisState) (ops : List Op) (name2 : String) (q2 : Int)
        (p2 : ItemPayload) (s2 : RedisState),
      hget s.item_name_to_id name1 = none →
      add_item name1 q1 s = .ok (p1, s1) →
      hget (run ops s1).item_name_to_id name2 = none →
      add_item name2 q2 (run ops s1) = .ok (p2, s2) →
      p1.item_id < p2.item_id) := by
  constructor
  · intro item_id s
    by_cases hex : hexistsItemId s.records item_id
    · simp [applyOp, delete_item, hex]
    · simp [applyOp, delete_item, hex]
  · intro s name1 q1 p1 s1 ops name2 q2 p2 s2 hres1 hok1 hres2 hok2
    by_cases hq1 : q1 ≤ 0
    · simp [add_item, hq1] at hok1
    by_cases hq2 : q2 ≤ 0
    · simp [add_item, hq2] at hok2
    simp [add_item, hq1, hres1] at hok1
    simp [add_item, hq2, hres2] at hok2
    have h1 : p1.item_id = s.item_ids + 1 := by rw [← hok1.1]
    have hs1 : s1.item_ids = s.item_ids + 1 := by rw [← hok1.2]
    have h2 : p2.item_id = (run ops s1).item_ids + 1 := by rw [← hok2.1]
    have hmono := item_ids_mono_run ops s1
    omega

theorem allocated_ids_strictly_increase_witness :
    (ItemPayload.mk 1 "a" 1).item_id < (ItemPayload.mk 2 "b" 1).item_id :=
  allocated_ids_strictly_increase.2 initialState "a" 1 ⟨1, "a", 1⟩
    ⟨1, [("a", 1)], [(1, ⟨some 1, some "a", some 1⟩)]⟩ [] "b" 1 ⟨2, "b", 1⟩
    ⟨2, [("a", 1), ("b", 2)],
      [(1, ⟨some 1, some "a", some 1⟩), (2, ⟨some 2, some "b", some 1⟩)]⟩
    rfl rfl (by decide) rfl

/-- The listing loop processes directory entries independently, in order. -/
theorem list_items_go_append (records : List (Int × ItemHash))
    (l1 l2 : List (String × Int)) :
    list_items_go records (l1 ++ l2)
      = list_items_go records l1 ++ list_items_go records l2 := by
  induction l1 with
  | nil => simp [list_items_go]
  | cons e t ih =>
    obtain ⟨name, item_id⟩ := e
    cases hx : (hget records item_id).bind ItemHash.item_name with
    | none => simpa [list_items_go, hx] using ih
    | some nm => simpa [list_items_go, hx] using ih

/-- C8: `list_items` is the loop `list_items_go` over the directory, and
for any directory entry visited by that loop: if the referenced record's
`item_name` field is missing the entry is silently dropped from the
result, while if only the `quantity` field is missing the entry is kept
with quantity 0. -/
theorem list_items_missing_field_policy :
    (∀ s : RedisState, list_items s = list_items_go s.records s.item_name_to_id) ∧
    (∀ (records : List (Int × ItemHash)) (l1 l2 : List (String × Int))
        (name : String) (item_id : Int),
      (hget records item_id).bind ItemHash.item_name = none →
      list_items_go records (l1 ++ (name, item_id) :: l2)
        = list_items_go records (l1 ++ l2)) ∧
    (∀ (records : List (Int × ItemHash)) (l1 l2 : List (String × Int))
        (name : String) (item_id : Int) (h : ItemHash) (nm : String),
      hget records item_id = some h → h.item_name = some nm → h.quantity = none →
      list_items_go records (l1 ++ (name, item_id) :: l2)
        = list_items_go records l1 ++ ⟨item_id, nm, 0⟩ :: list_items_go records l2) := by
  refine ⟨fun s => rfl, ?_, ?_⟩
  · intro records l1 l2 name item_id hx
    rw [list_items_go_append, list_items_go_append]
    congr 1
    simp [list_items_go, hx]
  · intro records l1 l2 name item_id h nm hh hnm hqn
    rw [list_items_go_append]
    congr 1
    simp [list_items_go, hh, hnm, hqn]

theorem list_items_missing_field_policy_witness :
    list_items_go [(1, ⟨some 1, some "apple", none⟩)] ([] ++ ("apple", 1) :: [])
      = list_items_go [(1, ⟨some 1, some "apple", none⟩)] []
        ++ ⟨1, "apple", 0⟩ :: list_items_go [(1, ⟨some 1, some "apple", none⟩)] [] :=
  list_items_missing_field_policy.2.2 [(1, ⟨some 1, some "apple", none⟩)] [] []
    "apple" 1 ⟨some 1, some "apple", none⟩ "apple" rfl rfl rfl

/-- C9: on every reachable state, delete-item answers 404 exactly when no
record is stored under the id; and when a record exists, the handler
removes the record and its name mapping — a subsequent get on the id
answers 404 and the name no longer resolves — and returns the confirmation
message built from the id and the name. -/
theorem delete_item_spec (ops : List Op) (item_id : Int) :
    (delete_item item_id (run ops initialState) = .error ⟨404, "Item not found."⟩ ↔
      hget (run ops initialState).records item_id = none) ∧
    (∀ h, hget (run ops initialState).records item_id = some h →
      ∃ nm s', h.item_name = some nm ∧
        delete_item item_id (run ops initialState)
          = .ok ("Item (" ++ toString item_id ++ ", " ++ nm ++ ") deleted.", s') ∧
        list_item item_id s' = .error ⟨404, "Item not found."⟩ ∧
        hget s'.item_name_to_id nm = none) := by
  have hwf := wf_run ops initialState wf_initialState
  constructor
  · constructor
    · intro he
      cases hg : hget (run ops initialState).records item_id with
      | none => rfl
      | some h =>
        have hB := hwf.2.1 (item_id, h) (hget_some_mem hg)
        have hBid : h.item_id = some item_id := hB.1
        have hex : hexistsItemId (run ops initialState).records item_id = true := by
          simp [hexistsItemId, hg, hBid]
        simp [delete_item, hex] at he
    · intro hn
      have hex : hexistsItemId (run ops initialState).records item_id = false := by
        simp [hexistsItemId, hn]
      simp [delete_item, hex]
  · intro h hg
    have hB := hwf.2.1 (item_id, h) (hget_some_mem hg)
    have hBid : h.item_id = some item_id := hB.1
    obtain ⟨nm, hnm⟩ := hB.2.1
    have hnm' : h.item_name = some nm := hnm
    have hex : hexistsItemId (run ops initialState).records item_id = true := by
      simp [hexistsItemId, hg, hBid]
    refine ⟨nm, { run ops initialState with
        item_name_to_id := hdel (run ops initialState).item_name_to_id nm
        records := hdel (run ops initialState).records item_id }, hnm, ?_, ?_, ?_⟩
    · simp [delete_item, hex, hg, hnm', pyStr]
    · simp [list_item, hexistsItemId, hget_hdel_self]
    · exact hget_hdel_self _ _

theorem delete_item_spec_witness :
    ∃ nm s', (ItemHash.mk (some 1) (some "apple") (some 5)).item_name = some nm ∧
      delete_item 1 (run [Op.add "apple" 5] initialState)
        = .ok ("Item (" ++ toString (1 : Int) ++ ", " ++ nm ++ ") deleted.", s') ∧
      list_item 1 s' = .error ⟨404, "Item not found."⟩ ∧
      hget s'.item_name_to_id nm = none :=
  (delete_item_spec [Op.add "apple" 5] 1).2 ⟨some 1, some "apple", some 5⟩ (by decide)

end Inventory
